import Mathlib

/-!
Verification of the raven network-engine reconciliation core
(`pkg/networkengine/util/utils.go`).

The development shallowly embeds the diff-and-converge algorithm:
IP addresses and MAC addresses are byte lists, Go maps are association
lists from string keys to records, and the netlink transport is a
function from operations to an optional error message (`none` = success).
-/

set_option maxHeartbeats 1000000
set_option maxRecDepth 8000

namespace Raven

/-! ### Byte-level rendering, ported from the Go standard library `net` package -/

/-- The twelve-byte v4-in-v6 marker used by `net.IP.To4`. -/
def v4InV6Pfx : List Nat := [0, 0, 0, 0, 0, 0, 0, 0, 0, 0, 255, 255]

/-- `net.IP.To4`: the 4-byte form of an IP, when it has one. -/
def ipTo4 (ip : List Nat) : Option (List Nat) :=
  if ip.length = 4 then some ip
  else if ip.length = 16 ∧ ip.take 12 = v4InV6Pfx then some (ip.drop 12)
  else none

/-- Hex digit characters, as in Go `hexDigit = "0123456789abcdef"`. -/
def hexDigitChar (n : Nat) : Char := Nat.digitChar (n % 16)

/-- Go `hexString`: two lowercase hex digits per byte, no separators. -/
def hexString (b : List Nat) : String :=
  String.mk (b.foldr (fun v acc => hexDigitChar (v / 16 % 16) :: hexDigitChar v :: acc) [])

/-- Go `appendHex`: lowercase hex of a group, no leading zeros, "0" for zero. -/
def appendHexStr (n : Nat) : String :=
  if n = 0 then "0" else String.mk (Nat.toDigits 16 n)

/-- The 16-bit group of a 16-byte address at group index `gi`. -/
def grpAt (p : List Nat) (gi : Nat) : Nat :=
  (p.get? (2 * gi)).getD 0 * 256 + (p.get? (2 * gi + 1)).getD 0

/-- The eight 16-bit groups of a 16-byte address. -/
def groupsOf (p : List Nat) : List Nat := (List.range 8).map (grpAt p)

/-- Length of the run of zero groups starting at group index `i`. -/
def zeroRunFrom (g : List Nat) (i : Nat) : Nat :=
  ((g.drop i).takeWhile (fun x => x == 0)).length

/-- The zero-group run selected by Go `IP.String` for `::` compression:
the earliest strictly-longest run, kept only when at least two groups long. -/
def bestZeroRun (g : List Nat) : Option (Nat × Nat) :=
  let cand := (List.range 8).foldl
    (fun best i =>
      let len := zeroRunFrom g i
      match best with
      | none => if 1 ≤ len then some (i, i + len) else none
      | some (s, e) => if e - s < len then some (i, i + len) else best)
    none
  match cand with
  | none => none
  | some (s, e) => if e - s ≤ 1 then none else some (s, e)

/-- The group-emission loop of Go `IP.String` for 16-byte addresses. -/
def ipv6Emit (p : List Nat) (run : Option (Nat × Nat)) : Nat → Nat → String
  | 0, _ => ""
  | fuel + 1, i =>
    if 8 ≤ i then ""
    else
      match run with
      | some (s, e) =>
        if i = s then
          "::" ++ (if 8 ≤ e then "" else appendHexStr (grpAt p e) ++ ipv6Emit p run fuel (e + 1))
        else
          (if 0 < i then ":" else "") ++ appendHexStr (grpAt p i) ++ ipv6Emit p run fuel (i + 1)
      | none =>
        (if 0 < i then ":" else "") ++ appendHexStr (grpAt p i) ++ ipv6Emit p run fuel (i + 1)

/-- Go `net.IP.String`. -/
def ipString (ip : List Nat) : String :=
  if ip.length = 0 then "<nil>"
  else
    match ipTo4 ip with
    | some p4 => String.intercalate "." (p4.map (fun b => toString b))
    | none =>
      if ip.length ≠ 16 then "?" ++ hexString ip
      else ipv6Emit ip (bestZeroRun (groupsOf ip)) 16 0

/-- `some k` when the byte is `k` leading one-bits followed by zero-bits. -/
def byteOnes (v : Nat) : Option Nat :=
  (List.range 9).find? (fun k => v == 256 - 2 ^ (8 - k))

/-- Go `simpleMaskLength`: the CIDR length of a contiguous mask, else `none`. -/
def simpleMaskLength : List Nat → Option Nat
  | [] => some 0
  | v :: rest =>
    if v = 255 then (simpleMaskLength rest).map (· + 8)
    else
      match byteOnes v with
      | none => none
      | some k => if rest.all (fun b => b == 0) then some k else none

/-- Go `net.IPMask.String`. -/
def maskString (m : List Nat) : String :=
  if m.length = 0 then "<nil>" else hexString m

/-- Go `networkNumberAndMask`. -/
def networkNumberAndMask (ip mask : List Nat) : Option (List Nat × List Nat) :=
  let nn : Option (List Nat) :=
    match ipTo4 ip with
    | some p4 => some p4
    | none => if ip.length = 16 then some ip else none
  match nn with
  | none => none
  | some nip =>
    if mask.length = 4 then
      if nip.length ≠ 4 then none else some (nip, mask)
    else if mask.length = 16 then
      some (nip, if nip.length = 4 then mask.drop 12 else mask)
    else none

/-! ### Data model -/

/-- `net.IPNet`: an IP prefix (address plus mask), bytes as naturals. -/
structure IPNet where
  ip : List Nat
  mask : List Nat
deriving DecidableEq

/-- Go `(*net.IPNet).String`: CIDR text such as `10.1.0.0/16`. -/
def ipNetString (n : IPNet) : String :=
  match networkNumberAndMask n.ip n.mask with
  | none => "<nil>"
  | some (nn, m) =>
    match simpleMaskLength m with
    | none => ipString nn ++ "/" ++ maskString m
    | some l => ipString nn ++ "/" ++ toString l

/-- Go `net.IP.Equal`. -/
def ipEqual (ip x : List Nat) : Bool :=
  if ip.length = x.length then ip == x
  else if ip.length = 4 ∧ x.length = 16 then
    (x.take 12 == v4InV6Pfx) && (ip == x.drop 12)
  else if ip.length = 16 ∧ x.length = 4 then
    (ip.take 12 == v4InV6Pfx) && (x == ip.drop 12)
  else false

/-- The fields of `netlink.Route` read by the reconciliation core. -/
structure Route where
  dst : IPNet
  gw : List Nat
  src : List Nat
  linkIndex : Int
  table : Int
deriving DecidableEq

/-- The fields of `netlink.Rule` read by the reconciliation core. -/
structure Rule where
  priority : Int
  table : Int
  family : Int
  src : Option IPNet
deriving DecidableEq

/-- The fields of `netlink.Neigh` read by the reconciliation core. -/
structure Neigh where
  linkIndex : Int
  family : Int
  ip : List Nat
  hardwareAddr : List Nat
deriving DecidableEq

/-- `AllZeroMAC` from utils.go. -/
def AllZeroMAC : List Nat := [0, 0, 0, 0, 0, 0]

/-- Character content of Go `net.HardwareAddr.String`. -/
def hwChars : List Nat → List Char
  | [] => []
  | [b] => [hexDigitChar (b / 16 % 16), hexDigitChar b]
  | b :: rest => hexDigitChar (b / 16 % 16) :: hexDigitChar b :: ':' :: hwChars rest

/-- Go `net.HardwareAddr.String`: colon-separated lowercase hex bytes. -/
def hwString (a : List Nat) : String := String.mk (hwChars a)

/-- `NewRavenRule` from utils.go (family fixed to `netlink.FAMILY_V4 = 2`). -/
def NewRavenRule (rulePriority routeTableID : Int) : Rule :=
  { priority := rulePriority, table := routeTableID, family := 2, src := none }

/-- `RouteKey` from utils.go: `fmt.Sprintf("%s-%d", route.Dst, route.Table)`. -/
def RouteKey (route : Route) : String :=
  ipNetString route.dst ++ "-" ++ toString route.table

/-- `RuleKey` from utils.go. -/
def RuleKey (rule : Rule) : String :=
  match rule.src with
  | none => "0.0.0.0/0"
  | some srcIPNet => ipNetString srcIPNet

/-- `routeEqual` from utils.go. -/
def routeEqual (x y : Route) : Bool :=
  ipEqual x.dst.ip y.dst.ip && ipEqual x.gw y.gw &&
    (x.dst.mask == y.dst.mask) && (x.linkIndex == y.linkIndex)

/-- The FDB map key used by `ListFDBsOnNode`: `v.IP.String()`. -/
def fdbKey (n : Neigh) : String := ipString n.ip

/-! ### Go maps as association lists -/

variable {α : Type}

/-- Go map read `m[k]`. -/
def lookupK : List (String × α) → String → Option α
  | [], _ => none
  | p :: rest, k => if p.1 = k then some p.2 else lookupK rest k

/-- Go `delete(m, k)`. -/
def eraseKey (k : String) : List (String × α) → List (String × α)
  | [] => []
  | p :: rest => if p.1 = k then eraseKey k rest else p :: eraseKey k rest

/-- Go map write `m[k] = v` (last write wins). -/
def insertKV (k : String) (v : α) (m : List (String × α)) : List (String × α) :=
  (k, v) :: eraseKey k m

/-- The key list of a map snapshot. -/
def keys (m : List (String × α)) : List String := m.map Prod.fst

/-- Boolean key-membership test. -/
def memKeys (k : String) (m : List (String × α)) : Bool :=
  m.any (fun p => p.1 == k)

/-- Every entry sits at the key its value derives, as listing guarantees. -/
@[reducible]
def wellKeyed (keyf : α → String) (m : List (String × α)) : Prop :=
  ∀ p ∈ m, keyf p.2 = p.1

/-- Map built by a Go `for` loop doing `m[keyf v] = v` over a slice. -/
def buildMap (keyf : α → String) (l : List α) : List (String × α) :=
  l.foldl (fun m v => insertKV (keyf v) v m) []

/-! ### Error aggregation (`github.com/vdobler/ht/errorlist`) -/

/-- `errorlist.List.Append`: keep the message only when the error is non-nil. -/
def appendErr (e : Option String) (l : List String) : List String :=
  match e with
  | none => l
  | some s => s :: l

/-- `errorlist.List.AsError`: `nil` exactly when no failure was collected. -/
def asError (l : List String) : Option (List String) :=
  if l.isEmpty then none else some l

/-! ### The converge engine -/

/-- A transport operation issued against the kernel. -/
inductive Op (α : Type) where
  | add (v : α)
  | replace (v : α)
  | del (v : α)
deriving DecidableEq

/-- The record an operation carries. -/
def opVal : Op α → α
  | .add v => v
  | .replace v => v
  | .del v => v

/-- Outcome of one converge call: the final contents of the caller's
`current` map, the transport operations issued in order, and the
collected failure messages. -/
structure SweepResult (α : Type) where
  current : List (String × α)
  ops : List (Op α)
  errs : List String
deriving DecidableEq

/-- The `for k, v := range desired` loop shared by `ApplyRules`,
`ApplyRoutes` and `ApplyFDBs`: absent keys get an `add`; matched keys are
removed from `current`, and, when an equality check `chk` is configured
(routes), a differing matched value gets a `replace`. -/
def applyLoop (tr : Op α → Option String) (chk : Option (α → α → Bool)) :
    List (String × α) → List (String × α) → SweepResult α
  | cur, [] => ⟨cur, [], []⟩
  | cur, (k, v) :: rest =>
    match lookupK cur k with
    | none =>
      let r := applyLoop tr chk cur rest
      ⟨r.current, .add v :: r.ops, appendErr (tr (.add v)) r.errs⟩
    | some ro =>
      match chk with
      | none => applyLoop tr chk (eraseKey k cur) rest
      | some eqf =>
        if eqf ro v then applyLoop tr chk (eraseKey k cur) rest
        else
          let r := applyLoop tr chk (eraseKey k cur) rest
          ⟨r.current, .replace v :: r.ops, appendErr (tr (.replace v)) r.errs⟩

/-- The full converge sweep: the desired loop, then deletion of every
entry still left in `current` (the `// remove unwanted ...` loop). -/
def applySweep (tr : Op α → Option String) (chk : Option (α → α → Bool))
    (current desired : List (String × α)) : SweepResult α :=
  let r := applyLoop tr chk current desired
  ⟨r.current,
   r.ops ++ r.current.map (fun p => .del p.2),
   r.errs ++ r.current.filterMap (fun p => tr (.del p.2))⟩

/-- `ApplyRules` from utils.go: plain add/delete convergence, no replace. -/
def ApplyRules (tr : Op Rule → Option String)
    (current desired : List (String × Rule)) : SweepResult Rule :=
  applySweep tr none current desired

/-- `ApplyRoutes` from utils.go: add/delete convergence with a
`routeEqual`-guarded replace for matched keys. -/
def ApplyRoutes (tr : Op Route → Option String)
    (current desired : List (String × Route)) : SweepResult Route :=
  applySweep tr (some routeEqual) current desired

/-- `ApplyFDBs` from utils.go: plain add/delete convergence, no replace. -/
def ApplyFDBs (tr : Op Neigh → Option String)
    (current desired : List (String × Neigh)) : SweepResult Neigh :=
  applySweep tr none current desired

/-- The Go `error` value returned by a converge call. -/
def sweepErr (r : SweepResult α) : Option (List String) := asError r.errs

/-! ### Kernel state as a keyed store -/

/-- Effect of one successful transport operation on the kernel's keyed
state: add and replace upsert the record at its key, delete removes it. -/
def applyOp (keyf : α → String) : Op α → List (String × α) → List (String × α)
  | .add v, st => insertKV (keyf v) v st
  | .replace v, st => insertKV (keyf v) v st
  | .del v, st => eraseKey (keyf v) st

/-- Kernel state after an operation list in which every operation
succeeded unconditionally. -/
def foldOps (keyf : α → String) (ops : List (Op α)) (st : List (String × α)) :
    List (String × α) :=
  ops.foldl (fun s op => applyOp keyf op s) st

/-- Kernel state after an operation list under transport `tr`:
a failed operation leaves the kernel unchanged. -/
def runOps (tr : Op α → Option String) (keyf : α → String)
    (ops : List (Op α)) (st : List (String × α)) : List (String × α) :=
  ops.foldl (fun s op => if tr op = none then applyOp keyf op s else s) st

/-! ### Listers and teardown -/

/-- `ListRulesOnNode` from utils.go, over the transport's listing result. -/
def ListRulesOnNode (listRes : Except String (List Rule)) :
    Except String (List (String × Rule)) :=
  match listRes with
  | .error e => .error e
  | .ok rules => .ok (buildMap RuleKey rules)

/-- `ListRoutesOnNode` from utils.go, over the transport's listing result. -/
def ListRoutesOnNode (listRes : Except String (List Route)) :
    Except String (List (String × Route)) :=
  match listRes with
  | .error e => .error e
  | .ok routes => .ok (buildMap RouteKey routes)

/-- `ListFDBsOnNode` from utils.go: keep only neighbors whose rendered
hardware address equals the rendered all-zero MAC, keyed by IP text. -/
def ListFDBsOnNode (neighRes : Except String (List Neigh)) :
    Except String (List (String × Neigh)) :=
  match neighRes with
  | .error e => .error e
  | .ok neighs => .ok (neighs.foldl
      (fun m v =>
        if hwString v.hardwareAddr = hwString AllZeroMAC then
          insertKV (ipString v.ip) v m
        else m)
      [])

/-- `CleanRoutesOnNode` from utils.go: list the table, then delete every
listed route, wrapping and aggregating listing and deletion failures. -/
def CleanRoutesOnNode (tr : Op Route → Option String)
    (listRes : Except String (List Route)) : List (Op Route) × Option (List String) :=
  match ListRoutesOnNode listRes with
  | .error e => ([], asError ["error listing routes: " ++ e])
  | .ok m =>
    (m.map (fun p => .del p.2),
     asError (m.filterMap (fun p =>
       (tr (.del p.2)).map (fun de => "error deleting routes: " ++ de))))

/-- `CleanRulesOnNode` from utils.go: the rule analogue of route teardown. -/
def CleanRulesOnNode (tr : Op Rule → Option String)
    (listRes : Except String (List Rule)) : List (Op Rule) × Option (List String) :=
  match ListRulesOnNode listRes with
  | .error e => ([], asError ["error listing rules: " ++ e])
  | .ok m =>
    (m.map (fun p => .del p.2),
     asError (m.filterMap (fun p =>
       (tr (.del p.2)).map (fun de => "error deleting rules: " ++ de))))

/-! ### Specification helpers -/

/-- What the desired loop decides for one desired entry, judged against
the `current` map it is looking at when the entry is reached. -/
def loopDecision (chk : Option (α → α → Bool)) (cur : List (String × α))
    (p : String × α) : Option (Op α) :=
  match lookupK cur p.1 with
  | none => some (.add p.2)
  | some ro =>
    match chk with
    | none => none
    | some eqf => if eqf ro p.2 then none else some (.replace p.2)

/-- The record left in kernel state at a key present in both maps. -/
def matchedVal (chk : Option (α → α → Bool)) (cv dv : α) : α :=
  match chk with
  | none => cv
  | some eqf => if eqf cv dv then cv else dv

/-- The operations of a sweep that target the object identified by `k`. -/
def opsForKey (keyf : α → String) (k : String) (ops : List (Op α)) : List (Op α) :=
  ops.filter (fun op => keyf (opVal op) == k)

/-- The last element of a list satisfying `q` (later entries of a listing
overwrite earlier ones at the same map key). -/
def lastMatch (q : α → Bool) : List α → Option α
  | [] => none
  | v :: rest =>
    match lastMatch q rest with
    | some w => some w
    | none => if q v then some v else none

/-- Selects the neighbors that `ListFDBsOnNode` would file under key `k`:
rendered MAC equal to the rendered all-zero MAC, rendered IP equal to `k`. -/
def fdbSel (k : String) (v : Neigh) : Bool :=
  decide (hwString v.hardwareAddr = hwString AllZeroMAC) && (ipString v.ip == k)

/-- The transport that always succeeds, used for concrete evaluations. -/
def trNone (α : Type) : Op α → Option String := fun _ => none

/-- A transport on which every operation fails, used for concrete evaluations. -/
def trFail (α : Type) : Op α → Option String := fun _ => some "netlink failure"

/-! Concrete records used to evaluate the theorems on closed inputs. -/

def ruleA : Rule := ⟨100, 9027, 2, some ⟨[10, 1, 0, 0], [255, 255, 0, 0]⟩⟩

def ruleB : Rule := ⟨100, 9027, 2, some ⟨[10, 2, 0, 0], [255, 255, 0, 0]⟩⟩

def routeA : Route :=
  ⟨⟨[10, 0, 0, 0], [255, 255, 255, 0]⟩, [1, 1, 1, 1], [], 3, 100⟩

def routeA2 : Route :=
  ⟨⟨[10, 0, 0, 0], [255, 255, 255, 0]⟩, [2, 2, 2, 2], [], 3, 100⟩

def routeB : Route :=
  ⟨⟨[10, 0, 1, 0], [255, 255, 255, 0]⟩, [1, 1, 1, 1], [], 3, 100⟩

def neighA : Neigh := ⟨7, 7, [192, 168, 0, 1], [0, 0, 0, 0, 0, 0]⟩

def neighB : Neigh := ⟨7, 7, [192, 168, 0, 2], [170, 27, 255, 0, 1, 2]⟩

def neighC : Neigh := ⟨7, 7, [192, 168, 0, 1], [170, 27, 255, 0, 1, 2]⟩

def cRulesW : List (String × Rule) := [(RuleKey ruleA, ruleA)]

def dRulesW : List (String × Rule) := [(RuleKey ruleB, ruleB)]

def cRoutesW : List (String × Route) := [(RouteKey routeA, routeA)]

def dRoutesW : List (String × Route) := [(RouteKey routeA2, routeA2), (RouteKey routeB, routeB)]

def cFdbW : List (String × Neigh) := [(fdbKey neighA, neighA)]

def dFdbW : List (String × Neigh) := [(fdbKey neighC, neighC)]

/-! ### Basic map lemmas -/

@[simp]
theorem keys_nil : keys ([] : List (String × α)) = [] := rfl

@[simp]
theorem keys_cons (p : String × α) (m : List (String × α)) :
    keys (p :: m) = p.1 :: keys m := rfl

@[simp]
theorem lookupK_nil (k : String) : lookupK ([] : List (String × α)) k = none := rfl

theorem lookupK_cons (p : String × α) (rest : List (String × α)) (k : String) :
    lookupK (p :: rest) k = if p.1 = k then some p.2 else lookupK rest k := rfl

@[simp]
theorem eraseKey_nil (k : String) : eraseKey k ([] : List (String × α)) = [] := rfl

theorem eraseKey_cons (k : String) (p : String × α) (rest : List (String × α)) :
    eraseKey k (p :: rest) =
      if p.1 = k then eraseKey k rest else p :: eraseKey k rest := rfl

theorem lookupK_eq_none (m : List (String × α)) (k : String) :
    lookupK m k = none ↔ k ∉ keys m := by
  induction m with
  | nil => simp
  | cons p rest ih =>
    by_cases h : p.1 = k
    · simp [lookupK_cons, h]
    · simp [lookupK_cons, h, ih, Ne.symm h]

theorem mem_keys_iff_lookupK (m : List (String × α)) (k : String) :
    k ∈ keys m ↔ lookupK m k ≠ none := by
  rw [Ne, lookupK_eq_none]; tauto

theorem lookupK_ne_of_none {m : List (String × α)} {k : String}
    (h : lookupK m k = none) : ∀ p ∈ m, p.1 ≠ k := by
  intro p hp
  rw [lookupK_eq_none] at h
  intro hk
  exact h (hk ▸ List.mem_map_of_mem Prod.fst hp)

theorem mem_keys_of_mem {m : List (String × α)} {p : String × α}
    (h : p ∈ m) : p.1 ∈ keys m := List.mem_map_of_mem Prod.fst h

@[simp]
theorem memKeys_nil (k : String) : memKeys k ([] : List (String × α)) = false := rfl

@[simp]
theorem memKeys_cons (k : String) (p : String × α) (m : List (String × α)) :
    memKeys k (p :: m) = ((p.1 == k) || memKeys k m) := by
  simp [memKeys]

theorem memKeys_iff (k : String) (m : List (String × α)) :
    memKeys k m = true ↔ k ∈ keys m := by
  induction m with
  | nil => simp
  | cons p rest ih =>
    simp only [memKeys_cons, Bool.or_eq_true, beq_iff_eq, ih, keys_cons, List.mem_cons]
    exact or_congr ⟨Eq.symm, Eq.symm⟩ Iff.rfl

theorem memKeys_eq_false (k : String) (m : List (String × α)) :
    memKeys k m = false ↔ k ∉ keys m := by
  rw [← memKeys_iff]
  cases memKeys k m <;> simp

theorem lookupK_erase (k : String) (m : List (String × α)) (x : String) :
    lookupK (eraseKey k m) x = if x = k then none else lookupK m x := by
  induction m with
  | nil => simp
  | cons p rest ih =>
    rw [eraseKey_cons]
    by_cases h1 : p.1 = k
    · rw [if_pos h1, ih]
      by_cases h2 : x = k
      · rw [if_pos h2, if_pos h2]
      · have hpx : p.1 ≠ x := fun he => h2 (he ▸ h1)
        rw [if_neg h2, if_neg h2, lookupK_cons, if_neg hpx]
    · rw [if_neg h1, lookupK_cons]
      by_cases h3 : p.1 = x
      · have hxk : ¬ x = k := fun hxk => h1 (h3.trans hxk)
        rw [if_pos h3, if_neg hxk, lookupK_cons, if_pos h3]
      · rw [if_neg h3, ih, lookupK_cons, if_neg h3]

theorem lookupK_insert (k : String) (v : α) (m : List (String × α)) (x : String) :
    lookupK (insertKV k v m) x = if x = k then some v else lookupK m x := by
  by_cases h : k = x
  · simp [insertKV, lookupK_cons, h]
  · simp [insertKV, lookupK_cons, h, lookupK_erase, Ne.symm h]

theorem lookupK_of_mem_nodup {m : List (String × α)} {k : String} {v : α}
    (hnd : (keys m).Nodup) (h : (k, v) ∈ m) : lookupK m k = some v := by
  induction m with
  | nil => simp at h
  | cons p rest ih =>
    rcases List.mem_cons.mp h with h1 | h1
    · simp [lookupK_cons, ← h1]
    · have hk : k ∈ keys rest := mem_keys_of_mem h1
      have hne : p.1 ≠ k := by
        intro he
        exact (List.nodup_cons.mp hnd).1 (he ▸ hk)
      simp [lookupK_cons, hne, ih (List.nodup_cons.mp hnd).2 h1]

theorem eraseKey_eq_filter (k : String) (m : List (String × α)) :
    eraseKey k m = m.filter (fun p => !(p.1 == k)) := by
  induction m with
  | nil => rfl
  | cons p rest ih =>
    by_cases h : p.1 = k
    · simp [eraseKey_cons, h, ih]
    · simp [eraseKey_cons, h, ih]

/-! ### The desired-loop lemmas -/

theorem applyLoop_nil (tr : Op α → Option String) (chk : Option (α → α → Bool))
    (cur : List (String × α)) :
    applyLoop tr chk cur [] = ⟨cur, [], []⟩ := rfl

theorem applyLoop_cons_add (tr : Op α → Option String) (chk : Option (α → α → Bool))
    {cur : List (String × α)} {k : String} {v : α} (rest : List (String × α))
    (h : lookupK cur k = none) :
    applyLoop tr chk cur ((k, v) :: rest) =
      ⟨(applyLoop tr chk cur rest).current,
       .add v :: (applyLoop tr chk cur rest).ops,
       appendErr (tr (.add v)) (applyLoop tr chk cur rest).errs⟩ := by
  simp [applyLoop, h]

theorem applyLoop_cons_skip (tr : Op α → Option String) (chk : Option (α → α → Bool))
    {cur : List (String × α)} {k : String} {v : α} {ro : α} (rest : List (String × α))
    (h : lookupK cur k = some ro)
    (hskip : chk = none ∨ ∃ eqf, chk = some eqf ∧ eqf ro v = true) :
    applyLoop tr chk cur ((k, v) :: rest) = applyLoop tr chk (eraseKey k cur) rest := by
  rcases hskip with h2 | ⟨eqf, h2, h3⟩
  · subst h2; simp [applyLoop, h]
  · subst h2; simp [applyLoop, h, h3]

theorem applyLoop_cons_replace (tr : Op α → Option String) {eqf : α → α → Bool}
    {cur : List (String × α)} {k : String} {v : α} {ro : α} (rest : List (String × α))
    (h : lookupK cur k = some ro) (hne : eqf ro v = false) :
    applyLoop tr (some eqf) cur ((k, v) :: rest) =
      ⟨(applyLoop tr (some eqf) (eraseKey k cur) rest).current,
       .replace v :: (applyLoop tr (some eqf) (eraseKey k cur) rest).ops,
       appendErr (tr (.replace v))
         (applyLoop tr (some eqf) (eraseKey k cur) rest).errs⟩ := by
  simp [applyLoop, h, hne]

theorem applyLoop_cons_current (tr : Op α → Option String)
    (chk : Option (α → α → Bool)) {cur : List (String × α)} {k : String} {v : α}
    {ro : α} (rest : List (String × α)) (h : lookupK cur k = some ro) :
    (applyLoop tr chk cur ((k, v) :: rest)).current =
      (applyLoop tr chk (eraseKey k cur) rest).current := by
  cases chk with
  | none => rw [applyLoop_cons_skip tr none rest h (Or.inl rfl)]
  | some eqf =>
    cases heq : eqf ro v with
    | true => rw [applyLoop_cons_skip tr (some eqf) rest h (Or.inr ⟨eqf, rfl, heq⟩)]
    | false => rw [applyLoop_cons_replace tr rest h heq]

theorem applyLoop_current (tr : Op α → Option String) (chk : Option (α → α → Bool)) :
    ∀ (des cur : List (String × α)),
      (applyLoop tr chk cur des).current = cur.filter (fun p => !memKeys p.1 des) := by
  intro des
  induction des with
  | nil =>
    intro cur
    simp [applyLoop_nil]
  | cons q rest ih =>
    intro cur
    obtain ⟨k, v⟩ := q
    cases hl : lookupK cur k with
    | none =>
      rw [applyLoop_cons_add tr chk rest hl, ih cur]
      refine List.filter_congr ?_
      intro p hp
      have hne : ¬ k = p.1 := Ne.symm (lookupK_ne_of_none hl p hp)
      simp [memKeys_cons, hne]
    | some ro =>
      rw [applyLoop_cons_current tr chk rest hl, ih (eraseKey k cur),
        eraseKey_eq_filter, List.filter_filter]
      refine List.filter_congr ?_
      intro p _
      by_cases hpk : p.1 = k
      · simp [memKeys_cons, hpk]
      · have h1 : (p.1 == k) = false := beq_eq_false_iff_ne.mpr hpk
        have h2 : (k == p.1) = false := beq_eq_false_iff_ne.mpr (Ne.symm hpk)
        simp [memKeys_cons, h1, h2]

theorem loopDecision_erase (chk : Option (α → α → Bool)) {cur : List (String × α)}
    {k : String} {q : String × α} (hne : q.1 ≠ k) :
    loopDecision chk (eraseKey k cur) q = loopDecision chk cur q := by
  simp [loopDecision, lookupK_erase, hne]

theorem applyLoop_ops (tr : Op α → Option String) (chk : Option (α → α → Bool)) :
    ∀ (des cur : List (String × α)), (keys des).Nodup →
      (applyLoop tr chk cur des).ops = des.filterMap (loopDecision chk cur) := by
  intro des
  induction des with
  | nil =>
    intro cur _
    simp [applyLoop_nil]
  | cons q rest ih =>
    intro cur hnd
    obtain ⟨k, v⟩ := q
    have hk : k ∉ keys rest := (List.nodup_cons.mp hnd).1
    have hnd2 : (keys rest).Nodup := (List.nodup_cons.mp hnd).2
    have hcongr : ∀ cur2, rest.filterMap (loopDecision chk (eraseKey k cur2)) =
        rest.filterMap (loopDecision chk cur2) := by
      intro cur2
      refine List.filterMap_congr ?_
      intro x hx
      have : x.1 ≠ k := fun he => hk (he ▸ mem_keys_of_mem hx)
      exact loopDecision_erase chk this
    cases hl : lookupK cur k with
    | none =>
      rw [applyLoop_cons_add tr chk rest hl, ih cur hnd2, List.filterMap_cons]
      simp [loopDecision, hl]
    | some ro =>
      cases chk with
      | none =>
        rw [applyLoop_cons_skip tr none rest hl (Or.inl rfl),
          ih (eraseKey k cur) hnd2, hcongr cur, List.filterMap_cons]
        simp [loopDecision, hl]
      | some eqf =>
        cases heq : eqf ro v with
        | true =>
          rw [applyLoop_cons_skip tr (some eqf) rest hl (Or.inr ⟨eqf, rfl, heq⟩),
            ih (eraseKey k cur) hnd2, hcongr cur, List.filterMap_cons]
          simp [loopDecision, hl, heq]
        | false =>
          rw [applyLoop_cons_replace tr rest hl heq,
            ih (eraseKey k cur) hnd2, hcongr cur, List.filterMap_cons]
          simp [loopDecision, hl, heq]

theorem applyLoop_errs (tr : Op α → Option String) (chk : Option (α → α → Bool)) :
    ∀ (des cur : List (String × α)),
      (applyLoop tr chk cur des).errs = (applyLoop tr chk cur des).ops.filterMap tr := by
  intro des
  induction des with
  | nil =>
    intro cur
    simp [applyLoop_nil]
  | cons q rest ih =>
    intro cur
    obtain ⟨k, v⟩ := q
    cases hl : lookupK cur k with
    | none =>
      rw [applyLoop_cons_add tr chk rest hl]
      cases he : tr (.add v) <;> simp [appendErr, List.filterMap_cons, he, ih cur]
    | some ro =>
      cases chk with
      | none =>
        rw [applyLoop_cons_skip tr none rest hl (Or.inl rfl)]
        exact ih (eraseKey k cur)
      | some eqf =>
        cases heq : eqf ro v with
        | true =>
          rw [applyLoop_cons_skip tr (some eqf) rest hl (Or.inr ⟨eqf, rfl, heq⟩)]
          exact ih (eraseKey k cur)
        | false =>
          rw [applyLoop_cons_replace tr rest hl heq]
          cases he : tr (.replace v) <;>
            simp [appendErr, List.filterMap_cons, he, ih (eraseKey k cur)]

theorem applyLoop_ops_tr_irrel (tr1 tr2 : Op α → Option String)
    (chk : Option (α → α → Bool)) :
    ∀ (des cur : List (String × α)),
      (applyLoop tr1 chk cur des).ops = (applyLoop tr2 chk cur des).ops := by
  intro des
  induction des with
  | nil =>
    intro cur
    simp [applyLoop_nil]
  | cons q rest ih =>
    intro cur
    obtain ⟨k, v⟩ := q
    cases hl : lookupK cur k with
    | none =>
      rw [applyLoop_cons_add tr1 chk rest hl, applyLoop_cons_add tr2 chk rest hl]
      simp [ih cur]
    | some ro =>
      cases chk with
      | none =>
        rw [applyLoop_cons_skip tr1 none rest hl (Or.inl rfl),
          applyLoop_cons_skip tr2 none rest hl (Or.inl rfl)]
        exact ih (eraseKey k cur)
      | some eqf =>
        cases heq : eqf ro v with
        | true =>
          rw [applyLoop_cons_skip tr1 (some eqf) rest hl (Or.inr ⟨eqf, rfl, heq⟩),
            applyLoop_cons_skip tr2 (some eqf) rest hl (Or.inr ⟨eqf, rfl, heq⟩)]
          exact ih (eraseKey k cur)
        | false =>
          rw [applyLoop_cons_replace tr1 rest hl heq,
            applyLoop_cons_replace tr2 rest hl heq]
          simp [ih (eraseKey k cur)]

/-! ### Sweep-level lemmas -/

theorem applySweep_current (tr : Op α → Option String) (chk : Option (α → α → Bool))
    (cur des : List (String × α)) :
    (applySweep tr chk cur des).current = cur.filter (fun p => !memKeys p.1 des) :=
  applyLoop_current tr chk des cur

theorem applySweep_ops_def (tr : Op α → Option String) (chk : Option (α → α → Bool))
    (cur des : List (String × α)) :
    (applySweep tr chk cur des).ops =
      (applyLoop tr chk cur des).ops ++
        (applyLoop tr chk cur des).current.map (fun p => .del p.2) := rfl

theorem applySweep_errs_def (tr : Op α → Option String) (chk : Option (α → α → Bool))
    (cur des : List (String × α)) :
    (applySweep tr chk cur des).errs =
      (applyLoop tr chk cur des).errs ++
        (applyLoop tr chk cur des).current.filterMap (fun p => tr (.del p.2)) := rfl

theorem applySweep_errs (tr : Op α → Option String) (chk : Option (α → α → Bool))
    (cur des : List (String × α)) :
    (applySweep tr chk cur des).errs = (applySweep tr chk cur des).ops.filterMap tr := by
  rw [applySweep_errs_def, applySweep_ops_def, List.filterMap_append,
    applyLoop_errs, List.filterMap_map]
  rfl

theorem asError_eq_none (l : List String) : asError l = none ↔ l = [] := by
  rw [asError]
  split
  · simp [*, List.isEmpty_iff] at *
    simp [*]
  · simp [*, List.isEmpty_iff] at *
    simp [*]

theorem sweepErr_eq_none (tr : Op α → Option String) (chk : Option (α → α → Bool))
    (cur des : List (String × α)) :
    sweepErr (applySweep tr chk cur des) = none ↔
      ∀ op ∈ (applySweep tr chk cur des).ops, tr op = none := by
  rw [sweepErr, asError_eq_none, applySweep_errs, List.filterMap_eq_nil_iff]

/-! ### Kernel-state lemmas -/

theorem mem_keys_iff_exists (k : String) (m : List (String × α)) :
    k ∈ keys m ↔ ∃ p ∈ m, p.1 = k := by
  simp [keys, List.mem_map]

theorem lookupK_some_mem {m : List (String × α)} {k : String} {v : α}
    (h : lookupK m k = some v) : (k, v) ∈ m := by
  induction m with
  | nil => simp at h
  | cons p rest ih =>
    rw [lookupK_cons] at h
    by_cases hp : p.1 = k
    · rw [if_pos hp] at h
      obtain ⟨p1, p2⟩ := p
      simp only at hp
      have hv : p2 = v := Option.some.inj h
      subst hp hv
      exact List.mem_cons_self _ _
    · rw [if_neg hp] at h
      exact List.mem_cons_of_mem p (ih h)

theorem foldOps_nil (keyf : α → String) (st : List (String × α)) :
    foldOps keyf [] st = st := rfl

theorem foldOps_cons (keyf : α → String) (op : Op α) (ops : List (Op α))
    (st : List (String × α)) :
    foldOps keyf (op :: ops) st = foldOps keyf ops (applyOp keyf op st) := rfl

theorem foldOps_append (keyf : α → String) (l1 l2 : List (Op α))
    (st : List (String × α)) :
    foldOps keyf (l1 ++ l2) st = foldOps keyf l2 (foldOps keyf l1 st) := by
  simp [foldOps]

theorem runOps_cons (tr : Op α → Option String) (keyf : α → String) (op : Op α)
    (ops : List (Op α)) (st : List (String × α)) :
    runOps tr keyf (op :: ops) st =
      runOps tr keyf ops (if tr op = none then applyOp keyf op st else st) := rfl

theorem runOps_eq_foldOps (tr : Op α → Option String) (keyf : α → String) :
    ∀ (ops : List (Op α)) (st : List (String × α)), (∀ op ∈ ops, tr op = none) →
      runOps tr keyf ops st = foldOps keyf ops st := by
  intro ops
  induction ops with
  | nil => intro st _; rfl
  | cons op rest ih =>
    intro st h
    rw [runOps_cons, foldOps_cons, if_pos (h op (List.mem_cons_self op rest))]
    exact ih _ (fun o ho => h o (List.mem_cons_of_mem op ho))

theorem lookupK_applyOp (keyf : α → String) (op : Op α) (st : List (String × α))
    (k : String) :
    lookupK (applyOp keyf op st) k =
      if keyf (opVal op) = k then
        match op with
        | .add v => some v
        | .replace v => some v
        | .del _ => none
      else lookupK st k := by
  cases op with
  | add v =>
    by_cases h : keyf v = k
    · simp [applyOp, lookupK_insert, opVal, h]
    · simp [applyOp, lookupK_insert, opVal, h, Ne.symm h]
  | replace v =>
    by_cases h : keyf v = k
    · simp [applyOp, lookupK_insert, opVal, h]
    · simp [applyOp, lookupK_insert, opVal, h, Ne.symm h]
  | del v =>
    by_cases h : keyf v = k
    · simp [applyOp, lookupK_erase, opVal, h]
    · simp [applyOp, lookupK_erase, opVal, h, Ne.symm h]

theorem loopDecision_shape {chk : Option (α → α → Bool)} {cur : List (String × α)}
    {p : String × α} {op : Op α} (h : loopDecision chk cur p = some op) :
    op = Op.add p.2 ∨ op = Op.replace p.2 := by
  cases chk with
  | none =>
    cases hlk : lookupK cur p.1 with
    | none =>
      simp [loopDecision, hlk] at h
      exact Or.inl h.symm
    | some ro => simp [loopDecision, hlk] at h
  | some eqf =>
    cases hlk : lookupK cur p.1 with
    | none =>
      simp [loopDecision, hlk] at h
      exact Or.inl h.symm
    | some ro =>
      by_cases he : eqf ro p.2
      · simp [loopDecision, hlk, he] at h
      · simp [loopDecision, hlk, he] at h
        exact Or.inr h.symm

theorem lookupK_foldOps_decisions (keyf : α → String) (chk : Option (α → α → Bool))
    (cur : List (String × α)) :
    ∀ (des st : List (String × α)) (k : String),
      wellKeyed keyf des → (keys des).Nodup →
      lookupK (foldOps keyf (des.filterMap (loopDecision chk cur)) st) k =
        match lookupK des k with
        | none => lookupK st k
        | some dv =>
          match loopDecision chk cur (k, dv) with
          | none => lookupK st k
          | some op => some (opVal op) := by
  intro des
  induction des with
  | nil =>
    intro st k _ _
    simp [foldOps_nil]
  | cons q rest ih =>
    intro st k hwk hnd
    obtain ⟨k0, v0⟩ := q
    have hk0 : keyf v0 = k0 := hwk (k0, v0) (List.mem_cons_self _ _)
    have hknr : k0 ∉ keys rest := (List.nodup_cons.mp hnd).1
    have hwkr : wellKeyed keyf rest := fun p hp => hwk p (List.mem_cons_of_mem _ hp)
    have hndr : (keys rest).Nodup := (List.nodup_cons.mp hnd).2
    rw [List.filterMap_cons]
    cases hd : loopDecision chk cur (k0, v0) with
    | none =>
      rw [ih st k hwkr hndr]
      by_cases hk : k0 = k
      · subst hk
        have hnone : lookupK rest k0 = none := (lookupK_eq_none rest k0).mpr hknr
        simp [hnone, lookupK_cons, hd]
      · simp [lookupK_cons, hk]
    | some op =>
      rw [foldOps_cons, ih (applyOp keyf op st) k hwkr hndr]
      have hval : opVal op = v0 := by
        rcases loopDecision_shape hd with h1 | h1 <;> rw [h1] <;> rfl
      by_cases hk : k0 = k
      · subst hk
        have hnone : lookupK rest k0 = none := (lookupK_eq_none rest k0).mpr hknr
        rcases loopDecision_shape hd with h1 | h1 <;> subst h1 <;>
          simp [hnone, lookupK_cons, hd, lookupK_applyOp, opVal, hk0]
      · have hst : lookupK (applyOp keyf op st) k = lookupK st k := by
          simp [lookupK_applyOp, hval, hk0, hk]
        cases hr : lookupK rest k with
        | none => simp [hr, lookupK_cons, hk, hst]
        | some dv => simp [hr, lookupK_cons, hk, hst]

theorem lookupK_foldOps_dels (keyf : α → String) :
    ∀ (dl st : List (String × α)) (k : String), wellKeyed keyf dl →
      lookupK (foldOps keyf (dl.map (fun p => Op.del p.2)) st) k =
        if k ∈ keys dl then none else lookupK st k := by
  intro dl
  induction dl with
  | nil =>
    intro st k _
    simp [foldOps_nil]
  | cons p rest ih =>
    intro st k hwk
    have hk0 : keyf p.2 = p.1 := hwk p (List.mem_cons_self _ _)
    have hwkr : wellKeyed keyf rest := fun q hq => hwk q (List.mem_cons_of_mem _ hq)
    rw [List.map_cons, foldOps_cons, ih (applyOp keyf (Op.del p.2) st) k hwkr]
    by_cases hmem : k ∈ keys rest
    · rw [if_pos hmem, if_pos (by simp [hmem])]
    · rw [if_neg hmem]
      by_cases hk : k = p.1
      · rw [if_pos (by simp [hk]), lookupK_applyOp]
        rw [show opVal (Op.del p.2) = p.2 from rfl, hk0, if_pos hk.symm]
      · rw [if_neg (by simp [hk, hmem]), lookupK_applyOp]
        rw [show opVal (Op.del p.2) = p.2 from rfl, hk0,
          if_neg (fun hh => hk hh.symm)]

/-- The state of the kernel store after a successful converge sweep,
looked up at any key. -/
theorem lookupK_after_sweep (keyf : α → String) (chk : Option (α → α → Bool))
    (tr : Op α → Option String) (C D : List (String × α))
    (hwkC : wellKeyed keyf C) (hwkD : wellKeyed keyf D)
    (hndD : (keys D).Nodup)
    (hok : ∀ op ∈ (applySweep tr chk C D).ops, tr op = none) (k : String) :
    lookupK (runOps tr keyf (applySweep tr chk C D).ops C) k =
      match lookupK D k, lookupK C k with
      | some dv, some cv => some (matchedVal chk cv dv)
      | some dv, none => some dv
      | none, _ => none := by
  rw [runOps_eq_foldOps tr keyf _ C hok, applySweep_ops_def,
    applyLoop_ops tr chk D C hndD, applyLoop_current tr chk D C,
    foldOps_append]
  have hwkF : wellKeyed keyf (C.filter (fun p => !memKeys p.1 D)) :=
    fun p hp => hwkC p (List.mem_filter.mp hp).1
  rw [lookupK_foldOps_dels keyf _ _ k hwkF,
    lookupK_foldOps_decisions keyf chk C D C k hwkD hndD]
  cases hD : lookupK D k with
  | none =>
    cases hC : lookupK C k with
    | none =>
      have hnot : k ∉ keys (C.filter (fun p => !memKeys p.1 D)) := by
        intro hmem
        rcases (mem_keys_iff_exists k _).mp hmem with ⟨p, hp, hpk⟩
        exact (lookupK_eq_none C k).mp hC
          (hpk ▸ mem_keys_of_mem (List.mem_filter.mp hp).1)
      simp [hnot]
    | some cv =>
      have hmem : k ∈ keys (C.filter (fun p => !memKeys p.1 D)) := by
        refine (mem_keys_iff_exists k _).mpr ⟨(k, cv), ?_, rfl⟩
        refine List.mem_filter.mpr ⟨lookupK_some_mem hC, ?_⟩
        simp [(memKeys_eq_false k D).mpr ((lookupK_eq_none D k).mp hD)]
      simp [hmem]
  | some dv =>
    have hnot : k ∉ keys (C.filter (fun p => !memKeys p.1 D)) := by
      intro hmem
      rcases (mem_keys_iff_exists k _).mp hmem with ⟨p, hp, hpk⟩
      have hmf : memKeys p.1 D = false := by
        have := (List.mem_filter.mp hp).2
        simpa using this
      rw [hpk] at hmf
      exact ((memKeys_eq_false k D).mp hmf)
        ((mem_keys_iff_lookupK D k).mpr (by simp [hD]))
    cases hC : lookupK C k with
    | none => simp [hnot, loopDecision, hC, opVal]
    | some cv =>
      cases chk with
      | none => simp [hnot, loopDecision, hC, matchedVal]
      | some eqf =>
        by_cases he : eqf cv dv
        · simp [hnot, loopDecision, hC, matchedVal, he]
        · simp [hnot, loopDecision, hC, matchedVal, he, opVal]

/-! ### Per-key operation lemmas -/

theorem opsForKey_filterMap_eq_nil (keyf : α → String) (k : String)
    (chk : Option (α → α → Bool)) (cur : List (String × α))
    {des : List (String × α)} (h : ∀ p ∈ des, keyf p.2 ≠ k) :
    opsForKey keyf k (des.filterMap (loopDecision chk cur)) = [] := by
  rw [opsForKey, List.filter_eq_nil_iff]
  intro op hop
  rcases List.mem_filterMap.mp hop with ⟨p, hp, hdec⟩
  have hval : opVal op = p.2 := by
    rcases loopDecision_shape hdec with h1 | h1 <;> rw [h1] <;> rfl
  simp [hval, h p hp]

theorem opsForKey_dels_eq_nil (keyf : α → String) (k : String)
    {dl : List (String × α)} (h : ∀ p ∈ dl, keyf p.2 ≠ k) :
    opsForKey keyf k (dl.map (fun p => Op.del p.2)) = [] := by
  rw [opsForKey, List.filter_eq_nil_iff]
  intro op hop
  rcases List.mem_map.mp hop with ⟨p, hp, hdel⟩
  have hval : opVal op = p.2 := by rw [← hdel]; rfl
  simp [hval, h p hp]

theorem opsForKey_decisions (keyf : α → String) (chk : Option (α → α → Bool))
    (cur : List (String × α)) :
    ∀ (des : List (String × α)) (k : String) (dv : α), wellKeyed keyf des →
      (keys des).Nodup → lookupK des k = some dv →
      opsForKey keyf k (des.filterMap (loopDecision chk cur)) =
        (loopDecision chk cur (k, dv)).toList := by
  intro des
  induction des with
  | nil =>
    intro k dv _ _ hl
    simp at hl
  | cons q rest ih =>
    intro k dv hwk hnd hl
    obtain ⟨k0, v0⟩ := q
    have hk0 : keyf v0 = k0 := hwk (k0, v0) (List.mem_cons_self _ _)
    have hknr : k0 ∉ keys rest := (List.nodup_cons.mp hnd).1
    have hwkr : wellKeyed keyf rest := fun p hp => hwk p (List.mem_cons_of_mem _ hp)
    have hndr : (keys rest).Nodup := (List.nodup_cons.mp hnd).2
    rw [List.filterMap_cons]
    by_cases hk : k0 = k
    · subst hk
      have hdv : dv = v0 := by
        have := hl
        rw [lookupK_cons, if_pos rfl] at this
        exact (Option.some.inj this).symm
      subst hdv
      have hrest : opsForKey keyf k0 (rest.filterMap (loopDecision chk cur)) = [] := by
        refine opsForKey_filterMap_eq_nil keyf k0 chk cur ?_
        intro p hp he
        exact hknr ((hwkr p hp ▸ he) ▸ mem_keys_of_mem hp)
      cases hd : loopDecision chk cur (k0, dv) with
      | none => simp [hd, hrest, Option.toList]
      | some op =>
        have hval : opVal op = dv := by
          rcases loopDecision_shape hd with h1 | h1 <;> rw [h1] <;> rfl
        have hbeq : (keyf (opVal op) == k0) = true :=
          beq_iff_eq.mpr (by rw [hval, hk0])
        rw [opsForKey] at hrest ⊢
        simp [List.filter_cons, hbeq, hrest, Option.toList]
    · have hlr : lookupK rest k = some dv := by
        have := hl
        rw [lookupK_cons, if_neg hk] at this
        exact this
      cases hd : loopDecision chk cur (k0, v0) with
      | none => exact ih k dv hwkr hndr hlr
      | some op =>
        have hval : opVal op = v0 := by
          rcases loopDecision_shape hd with h1 | h1 <;> rw [h1] <;> rfl
        have hbeq : (keyf (opVal op) == k) = false :=
          beq_eq_false_iff_ne.mpr (by rw [hval, hk0]; exact hk)
        rw [opsForKey, List.filter_cons]
        simp only [hbeq]
        exact ih k dv hwkr hndr hlr

/-- Per-key operations of a full sweep when the key is present in both maps. -/
theorem opsForKey_sweep (keyf : α → String) (chk : Option (α → α → Bool))
    (tr : Op α → Option String) (C D : List (String × α)) (k : String) (dv : α)
    (hwkC : wellKeyed keyf C) (hwkD : wellKeyed keyf D)
    (hndD : (keys D).Nodup) (hdv : lookupK D k = some dv) :
    opsForKey keyf k (applySweep tr chk C D).ops =
      (loopDecision chk C (k, dv)).toList := by
  rw [applySweep_ops_def, applyLoop_ops tr chk D C hndD, applyLoop_current tr chk D C,
    opsForKey, List.filter_append, ← opsForKey, ← opsForKey,
    opsForKey_decisions keyf chk C D k dv hwkD hndD hdv,
    opsForKey_dels_eq_nil keyf k, List.append_nil]
  intro p hp he
  have hpD : memKeys p.1 D = false := by
    have := (List.mem_filter.mp hp).2
    simpa using this
  have hkD : k ∈ keys D := (mem_keys_iff_lookupK D k).mpr (by simp [hdv])
  have hpk : p.1 = k := (hwkC p (List.mem_filter.mp hp).1) ▸ he
  exact (memKeys_eq_false p.1 D).mp hpD (hpk ▸ hkD)

/-! ### Route equality facts -/

theorem ipEqual_refl (x : List Nat) : ipEqual x x = true := by
  simp [ipEqual]

theorem routeEqual_refl (r : Route) : routeEqual r r = true := by
  simp [routeEqual, ipEqual_refl]

/-! ### FDB listing lemmas -/

theorem lastMatch_nil (q : α → Bool) : lastMatch q [] = none := rfl

theorem lastMatch_cons (q : α → Bool) (v : α) (rest : List α) :
    lastMatch q (v :: rest) =
      match lastMatch q rest with
      | some w => some w
      | none => if q v then some v else none := rfl

theorem lastMatch_mem {q : α → Bool} :
    ∀ {l : List α} {w : α}, lastMatch q l = some w → w ∈ l ∧ q w = true := by
  intro l
  induction l with
  | nil => intro w h; simp [lastMatch_nil] at h
  | cons v rest ih =>
    intro w h
    rw [lastMatch_cons] at h
    cases hlm : lastMatch q rest with
    | some u =>
      rw [hlm] at h
      have hw : u = w := Option.some.inj h
      rcases ih hlm with ⟨hmem, hq⟩
      exact ⟨List.mem_cons_of_mem v (hw ▸ hmem), hw ▸ hq⟩
    | none =>
      rw [hlm] at h
      by_cases hq : q v
      · rw [if_pos hq] at h
        have hw : v = w := Option.some.inj h
        exact ⟨hw ▸ List.mem_cons_self v rest, hw ▸ hq⟩
      · rw [if_neg hq] at h
        cases h

theorem lastMatch_isSome {q : α → Bool} :
    ∀ {l : List α} {v : α}, v ∈ l → q v = true → lastMatch q l ≠ none := by
  intro l
  induction l with
  | nil => intro v h _; simp at h
  | cons u rest ih =>
    intro v hmem hq
    rw [lastMatch_cons]
    cases hlm : lastMatch q rest with
    | some w => simp
    | none =>
      rcases List.mem_cons.mp hmem with h1 | h1
      · subst h1
        rw [if_pos hq]
        simp
      · exact absurd hlm (ih h1 hq)

theorem lookupK_fdbFold (ns : List Neigh) :
    ∀ (acc : List (String × Neigh)) (k : String),
      lookupK (ns.foldl (fun m v =>
        if hwString v.hardwareAddr = hwString AllZeroMAC then
          insertKV (ipString v.ip) v m
        else m) acc) k =
      match lastMatch (fdbSel k) ns with
      | some w => some w
      | none => lookupK acc k := by
  induction ns with
  | nil => intro acc k; rfl
  | cons v rest ih =>
    intro acc k
    rw [List.foldl_cons, ih]
    cases hlm : lastMatch (fdbSel k) rest with
    | some w => rw [lastMatch_cons, hlm]
    | none =>
      rw [lastMatch_cons, hlm]
      by_cases h1 : hwString v.hardwareAddr = hwString AllZeroMAC
      · by_cases h2 : ipString v.ip = k
        · simp [fdbSel, h1, h2, lookupK_insert]
        · simp [fdbSel, h1, h2, lookupK_insert, Ne.symm h2]
      · simp [fdbSel, h1]

/-! ### Hardware-address rendering is injective on byte lists -/

theorem digitChar_inj_lt : ∀ x < 16, ∀ y < 16,
    Nat.digitChar x = Nat.digitChar y → x = y := by decide

theorem hexPair_inj {b c : Nat} (hb : b < 256) (hc : c < 256)
    (h1 : hexDigitChar (b / 16 % 16) = hexDigitChar (c / 16 % 16))
    (h2 : hexDigitChar b = hexDigitChar c) : b = c := by
  rw [hexDigitChar, hexDigitChar] at h1 h2
  have e1 : b / 16 % 16 % 16 = c / 16 % 16 % 16 :=
    digitChar_inj_lt _ (Nat.mod_lt _ (by norm_num)) _ (Nat.mod_lt _ (by norm_num)) h1
  have e2 : b % 16 = c % 16 :=
    digitChar_inj_lt _ (Nat.mod_lt _ (by norm_num)) _ (Nat.mod_lt _ (by norm_num)) h2
  have e1b : b / 16 = c / 16 := by
    have hb16 : b / 16 < 16 := by omega
    have hc16 : c / 16 < 16 := by omega
    simpa [Nat.mod_eq_of_lt hb16, Nat.mod_eq_of_lt hc16] using e1
  omega

theorem hwChars_inj : ∀ (a b : List Nat), (∀ x ∈ a, x < 256) → (∀ x ∈ b, x < 256) →
    hwChars a = hwChars b → a = b := by
  intro a
  induction a with
  | nil =>
    intro b _ _ h
    cases b with
    | nil => rfl
    | cons y bs => cases bs <;> simp [hwChars] at h
  | cons x as ih =>
    intro b ha hb h
    cases b with
    | nil => cases as <;> simp [hwChars] at h
    | cons y bs =>
      cases as with
      | nil =>
        cases bs with
        | nil =>
          simp [hwChars] at h
          obtain ⟨h1, h2⟩ := h
          have hx := ha x (by simp)
          have hy := hb y (by simp)
          rw [hexPair_inj hx hy h1 h2]
        | cons z cs => simp [hwChars] at h
      | cons x2 as2 =>
        cases bs with
        | nil => simp [hwChars] at h
        | cons z cs =>
          simp [hwChars] at h
          obtain ⟨h1, h2, h3⟩ := h
          have hx := ha x (by simp)
          have hy := hb y (by simp)
          have hxy := hexPair_inj hx hy h1 h2
          have htl := ih (z :: cs) (fun u hu => ha u (List.mem_cons_of_mem _ hu))
            (fun u hu => hb u (List.mem_cons_of_mem _ hu)) h3
          rw [hxy, htl]

theorem hwString_inj {a b : List Nat} (ha : ∀ x ∈ a, x < 256)
    (hb : ∀ x ∈ b, x < 256) (h : hwString a = hwString b) : a = b :=
  hwChars_inj a b ha hb (congrArg String.data h)

theorem loopDecision_eval (chk : Option (α → α → Bool)) (cur : List (String × α))
    (k : String) (v : α) :
    loopDecision chk cur (k, v) =
      match lookupK cur k with
      | none => some (.add v)
      | some ro =>
        match chk with
        | none => none
        | some eqf => if eqf ro v then none else some (.replace v) := rfl

/-! ### Claim theorems -/

/-- C1: if `ApplyRules(C, D)` succeeds, the kernel rule state for the table,
obtained by running the issued operations against the listed state `C`, has
exactly the key set of `D`: every key of `D` is present and every key of `C`
absent from `D` has been deleted. -/
theorem claim_C1_apply_rules_key_set (tr : Op Rule → Option String)
    (C D : List (String × Rule))
    (hwkC : wellKeyed RuleKey C) (hwkD : wellKeyed RuleKey D)
    (hndD : (keys D).Nodup)
    (hok : sweepErr (ApplyRules tr C D) = none) :
    ∀ k, k ∈ keys (runOps tr RuleKey (ApplyRules tr C D).ops C) ↔ k ∈ keys D := by
  intro k
  have hops : ∀ op ∈ (applySweep tr none C D).ops, tr op = none :=
    (sweepErr_eq_none tr none C D).mp hok
  rw [mem_keys_iff_lookupK (runOps tr RuleKey (ApplyRules tr C D).ops C) k,
    mem_keys_iff_lookupK D k,
    show ApplyRules tr C D = applySweep tr none C D from rfl,
    lookupK_after_sweep RuleKey none tr C D hwkC hwkD hndD hops k]
  cases lookupK D k <;> cases lookupK C k <;> simp

/-- C2: for a key present in both current and desired, `ApplyRoutes` issues
exactly one replace for that key precisely when the two routes differ on
destination IP, gateway IP, destination mask, or link index (source IP and
table are not compared), and no add, delete, or other operation otherwise. -/
theorem claim_C2_replace_iff_route_changed (tr : Op Route → Option String)
    (C D : List (String × Route)) (k : String) (cv dv : Route)
    (hwkC : wellKeyed RouteKey C) (hwkD : wellKeyed RouteKey D)
    (hndD : (keys D).Nodup)
    (hcv : lookupK C k = some cv) (hdv : lookupK D k = some dv) :
    opsForKey RouteKey k (ApplyRoutes tr C D).ops =
      (if ipEqual cv.dst.ip dv.dst.ip && ipEqual cv.gw dv.gw &&
          (cv.dst.mask == dv.dst.mask) && (cv.linkIndex == dv.linkIndex)
        then [] else [Op.replace dv]) := by
  rw [show ApplyRoutes tr C D = applySweep tr (some routeEqual) C D from rfl,
    opsForKey_sweep RouteKey (some routeEqual) tr C D k dv hwkC hwkD hndD hdv,
    loopDecision_eval, hcv]
  show (if routeEqual cv dv then (none : Option (Op Route))
      else some (Op.replace dv)).toList =
    if routeEqual cv dv then [] else [Op.replace dv]
  by_cases he : routeEqual cv dv <;> simp [he, Option.toList]

/-- C3: `ApplyRules` is continue-on-error: the operations issued (and the
final current map) are the same for any transport, every desired rule whose
key is absent from current gets its add attempted, and every current-only
rule gets its delete attempted, regardless of other failures. -/
theorem claim_C3_continue_on_error (tr1 tr2 : Op Rule → Option String)
    (C D : List (String × Rule)) (hndD : (keys D).Nodup) :
    (ApplyRules tr1 C D).ops = (ApplyRules tr2 C D).ops ∧
    (ApplyRules tr1 C D).current = (ApplyRules tr2 C D).current ∧
    (∀ p ∈ D, lookupK C p.1 = none → Op.add p.2 ∈ (ApplyRules tr1 C D).ops) ∧
    (∀ p ∈ C, lookupK D p.1 = none → Op.del p.2 ∈ (ApplyRules tr1 C D).ops) := by
  refine ⟨?_, ?_, ?_, ?_⟩
  · rw [show ApplyRules tr1 C D = applySweep tr1 none C D from rfl,
      show ApplyRules tr2 C D = applySweep tr2 none C D from rfl,
      applySweep_ops_def, applySweep_ops_def,
      applyLoop_ops_tr_irrel tr1 tr2 none D C,
      applyLoop_current tr1 none D C, applyLoop_current tr2 none D C]
  · rw [show (ApplyRules tr1 C D).current = (applySweep tr1 none C D).current from rfl,
      show (ApplyRules tr2 C D).current = (applySweep tr2 none C D).current from rfl,
      applySweep_current tr1 none C D, applySweep_current tr2 none C D]
  · intro p hp hnone
    rw [show ApplyRules tr1 C D = applySweep tr1 none C D from rfl,
      applySweep_ops_def, applyLoop_ops tr1 none D C hndD]
    refine List.mem_append_left _ ?_
    refine List.mem_filterMap.mpr ⟨p, hp, ?_⟩
    simp [loopDecision, hnone]
  · intro p hp hnone
    rw [show ApplyRules tr1 C D = applySweep tr1 none C D from rfl,
      applySweep_ops_def]
    refine List.mem_append_right _ ?_
    refine List.mem_map.mpr ⟨p, ?_, rfl⟩
    rw [applyLoop_current tr1 none D C]
    refine List.mem_filter.mpr ⟨hp, ?_⟩
    simp [(memKeys_eq_false p.1 D).mpr ((lookupK_eq_none D p.1).mp hnone)]

/-- C4: each of `ApplyRules`, `ApplyRoutes`, `ApplyFDBs` returns nil exactly
when every issued operation succeeded, and its aggregate collects exactly
the failure messages of the issued operations, in order. -/
theorem claim_C4_error_aggregation (trRu : Op Rule → Option String)
    (trRo : Op Route → Option String) (trN : Op Neigh → Option String)
    (cRu dRu : List (String × Rule)) (cRo dRo : List (String × Route))
    (cN dN : List (String × Neigh)) :
    (sweepErr (ApplyRules trRu cRu dRu) = none ↔
      ∀ op ∈ (ApplyRules trRu cRu dRu).ops, trRu op = none) ∧
    (ApplyRules trRu cRu dRu).errs = (ApplyRules trRu cRu dRu).ops.filterMap trRu ∧
    (sweepErr (ApplyRoutes trRo cRo dRo) = none ↔
      ∀ op ∈ (ApplyRoutes trRo cRo dRo).ops, trRo op = none) ∧
    (ApplyRoutes trRo cRo dRo).errs = (ApplyRoutes trRo cRo dRo).ops.filterMap trRo ∧
    (sweepErr (ApplyFDBs trN cN dN) = none ↔
      ∀ op ∈ (ApplyFDBs trN cN dN).ops, trN op = none) ∧
    (ApplyFDBs trN cN dN).errs = (ApplyFDBs trN cN dN).ops.filterMap trN :=
  ⟨sweepErr_eq_none trRu none cRu dRu, applySweep_errs trRu none cRu dRu,
   sweepErr_eq_none trRo (some routeEqual) cRo dRo,
   applySweep_errs trRo (some routeEqual) cRo dRo,
   sweepErr_eq_none trN none cN dN, applySweep_errs trN none cN dN⟩

/-- C5: `ApplyRoutes` is idempotent: when a first call succeeds and the
resulting kernel state is re-listed as the new current map, a second call
with the same desired map issues no operation at all. -/
theorem claim_C5_apply_routes_idempotent (tr tr2 : Op Route → Option String)
    (C D : List (String × Route))
    (hwkC : wellKeyed RouteKey C) (hwkD : wellKeyed RouteKey D)
    (hndD : (keys D).Nodup)
    (hok : sweepErr (ApplyRoutes tr C D) = none) :
    (ApplyRoutes tr2 (runOps tr RouteKey (ApplyRoutes tr C D).ops C) D).ops = [] := by
  have hops : ∀ op ∈ (applySweep tr (some routeEqual) C D).ops, tr op = none :=
    (sweepErr_eq_none tr (some routeEqual) C D).mp hok
  have hchar := lookupK_after_sweep RouteKey (some routeEqual) tr C D hwkC hwkD hndD hops
  rw [show ApplyRoutes tr C D = applySweep tr (some routeEqual) C D from rfl]
  rw [show ApplyRoutes tr2
        (runOps tr RouteKey (applySweep tr (some routeEqual) C D).ops C) D =
      applySweep tr2 (some routeEqual)
        (runOps tr RouteKey (applySweep tr (some routeEqual) C D).ops C) D from rfl]
  rw [applySweep_ops_def tr2 (some routeEqual)
      (runOps tr RouteKey (applySweep tr (some routeEqual) C D).ops C) D]
  rw [applyLoop_ops tr2 (some routeEqual) D
      (runOps tr RouteKey (applySweep tr (some routeEqual) C D).ops C) hndD]
  rw [applyLoop_current tr2 (some routeEqual) D
      (runOps tr RouteKey (applySweep tr (some routeEqual) C D).ops C)]
  have h1 : D.filterMap
      (loopDecision (some routeEqual)
        (runOps tr RouteKey (applySweep tr (some routeEqual) C D).ops C)) = [] := by
    refine List.filterMap_eq_nil_iff.mpr ?_
    intro p hp
    have hpd : lookupK D p.1 = some p.2 := lookupK_of_mem_nodup hndD hp
    have hc2 := hchar p.1
    rw [hpd] at hc2
    cases hC : lookupK C p.1 with
    | none =>
      rw [hC] at hc2
      simp [loopDecision, hc2, routeEqual_refl]
    | some cv =>
      rw [hC] at hc2
      by_cases he : routeEqual cv p.2
      · simp [loopDecision, hc2, matchedVal, he]
      · simp [loopDecision, hc2, matchedVal, he, routeEqual_refl]
  have h2 : (runOps tr RouteKey (applySweep tr (some routeEqual) C D).ops C).filter
      (fun p => !memKeys p.1 D) = [] := by
    refine List.filter_eq_nil_iff.mpr ?_
    intro p hp
    have hk : p.1 ∈ keys (runOps tr RouteKey (applySweep tr (some routeEqual) C D).ops C) :=
      mem_keys_of_mem hp
    have hlk := (mem_keys_iff_lookupK _ p.1).mp hk
    have hDk : lookupK D p.1 ≠ none := by
      intro hD
      have hc2 := hchar p.1
      rw [hD] at hc2
      exact hlk hc2
    have : p.1 ∈ keys D := (mem_keys_iff_lookupK D p.1).mpr hDk
    simp [(memKeys_iff p.1 D).mpr this]
  rw [h1, h2]
  rfl

/-- C6: the mapping built by `ListFDBsOnNode` holds exactly the listed
neighbors whose rendered MAC is the all-zero sentinel, each under its
rendered IP; entries with a non-zero MAC are never included. -/
theorem claim_C6_fdb_filter (ns : List Neigh) (m : List (String × Neigh))
    (hm : ListFDBsOnNode (Except.ok ns) = Except.ok m) :
    (∀ k v, lookupK m k = some v →
        v ∈ ns ∧ hwString v.hardwareAddr = hwString AllZeroMAC ∧ k = ipString v.ip) ∧
    (∀ k v, lookupK m k = some v → (∀ b ∈ v.hardwareAddr, b < 256) →
        v.hardwareAddr = AllZeroMAC) ∧
    (∀ v ∈ ns, hwString v.hardwareAddr = hwString AllZeroMAC →
      (∀ w ∈ ns, hwString w.hardwareAddr = hwString AllZeroMAC →
        ipString w.ip = ipString v.ip → w = v) →
      lookupK m (ipString v.ip) = some v) := by
  have hm2 : m = ns.foldl (fun m v =>
      if hwString v.hardwareAddr = hwString AllZeroMAC then
        insertKV (ipString v.ip) v m
      else m) [] := by
    have h := hm
    rw [ListFDBsOnNode] at h
    exact (Except.ok.inj h).symm
  have hsound : ∀ k v, lookupK m k = some v →
      v ∈ ns ∧ hwString v.hardwareAddr = hwString AllZeroMAC ∧ k = ipString v.ip := by
    intro k v hl
    rw [hm2, lookupK_fdbFold ns [] k] at hl
    cases hlm : lastMatch (fdbSel k) ns with
    | none =>
      rw [hlm] at hl
      cases hl
    | some w =>
      rw [hlm] at hl
      have hwv : w = v := Option.some.inj hl
      rcases lastMatch_mem hlm with ⟨hmem, hq⟩
      rw [fdbSel, Bool.and_eq_true, decide_eq_true_eq, beq_iff_eq] at hq
      exact ⟨hwv ▸ hmem, hwv ▸ hq.1, hwv ▸ hq.2.symm⟩
  refine ⟨hsound, ?_, ?_⟩
  · intro k v hl hbytes
    have hz := (hsound k v hl).2.1
    exact hwString_inj hbytes (by decide) hz
  · intro v hv hsent huniq
    rw [hm2, lookupK_fdbFold ns [] (ipString v.ip)]
    have hsel : fdbSel (ipString v.ip) v = true := by
      simp [fdbSel, hsent]
    cases hlm : lastMatch (fdbSel (ipString v.ip)) ns with
    | none => exact absurd hlm (lastMatch_isSome hv hsel)
    | some w =>
      rcases lastMatch_mem hlm with ⟨hmem, hq⟩
      rw [fdbSel, Bool.and_eq_true, decide_eq_true_eq, beq_iff_eq] at hq
      rw [huniq w hmem hq.1 hq.2]

/-- C7: `RuleKey` is the source prefix rendered as CIDR text, the literal
`0.0.0.0/0` when the source prefix is absent, and it never depends on the
rule's priority, table, or family. -/
theorem claim_C7_rule_key (p1 t1 f1 p2 t2 f2 : Int) (s : Option IPNet) (n : IPNet) :
    RuleKey ⟨p1, t1, f1, none⟩ = "0.0.0.0/0" ∧
    RuleKey ⟨p1, t1, f1, some n⟩ = ipNetString n ∧
    RuleKey ⟨p1, t1, f1, s⟩ = RuleKey ⟨p2, t2, f2, s⟩ := by
  refine ⟨rfl, rfl, ?_⟩
  cases s <;> rfl

/-- C8: `ApplyFDBs` never touches a key present in both current and desired:
no add, replace, or delete operation is issued for it, even when the two
entries carry different MAC addresses. -/
theorem claim_C8_fdb_no_replace (tr : Op Neigh → Option String)
    (C D : List (String × Neigh)) (k : String) (cv dv : Neigh)
    (hwkC : wellKeyed fdbKey C) (hwkD : wellKeyed fdbKey D)
    (hndD : (keys D).Nodup)
    (hcv : lookupK C k = some cv) (hdv : lookupK D k = some dv) :
    opsForKey fdbKey k (ApplyFDBs tr C D).ops = [] := by
  rw [show ApplyFDBs tr C D = applySweep tr none C D from rfl,
    opsForKey_sweep fdbKey none tr C D k dv hwkC hwkD hndD hdv,
    loopDecision_eval, hcv]
  rfl

/-- C9: `CleanRoutesOnNode` deletes every listed route and aggregates the
failures; when the listing itself fails it issues no deletion and returns a
non-nil error carrying the wrapped listing failure. -/
theorem claim_C9_clean_routes (tr : Op Route → Option String) :
    (∀ e, CleanRoutesOnNode tr (Except.error e) =
        ([], some ["error listing routes: " ++ e])) ∧
    (∀ routes, (CleanRoutesOnNode tr (Except.ok routes)).1 =
        (buildMap RouteKey routes).map (fun p => Op.del p.2) ∧
      ((CleanRoutesOnNode tr (Except.ok routes)).2 = none ↔
        ∀ op ∈ (CleanRoutesOnNode tr (Except.ok routes)).1, tr op = none)) := by
  constructor
  · intro e
    rfl
  · intro routes
    refine ⟨rfl, ?_⟩
    rw [show (CleanRoutesOnNode tr (Except.ok routes)).2 =
        asError ((buildMap RouteKey routes).filterMap (fun p =>
          (tr (Op.del p.2)).map (fun de => "error deleting routes: " ++ de))) from rfl,
      asError_eq_none, List.filterMap_eq_nil_iff]
    constructor
    · intro h op hop
      rcases List.mem_map.mp hop with ⟨p, hp, hdel⟩
      have hh := h p hp
      cases htr : tr (Op.del p.2) with
      | none => rw [← hdel]; exact htr
      | some s => rw [htr] at hh; cases hh
    · intro h p hp
      have hh := h (Op.del p.2) (List.mem_map.mpr ⟨p, hp, rfl⟩)
      rw [hh]
      rfl

/-- C10: every converge call leaves the caller's current map holding exactly
the entries whose key is not in desired — each matched key has been removed
in place — for rules, routes, and FDB entries alike. -/
theorem claim_C10_current_mutation (trRu : Op Rule → Option String)
    (trRo : Op Route → Option String) (trN : Op Neigh → Option String)
    (cRu dRu : List (String × Rule)) (cRo dRo : List (String × Route))
    (cN dN : List (String × Neigh)) :
    (ApplyRules trRu cRu dRu).current = cRu.filter (fun p => !memKeys p.1 dRu) ∧
    (ApplyRoutes trRo cRo dRo).current = cRo.filter (fun p => !memKeys p.1 dRo) ∧
    (ApplyFDBs trN cN dN).current = cN.filter (fun p => !memKeys p.1 dN) :=
  ⟨applySweep_current trRu none cRu dRu,
   applySweep_current trRo (some routeEqual) cRo dRo,
   applySweep_current trN none cN dN⟩

/-! ### Concrete witnesses -/

/-- Witness for C1: one stale rule and one fresh desired rule. -/
theorem claim_C1_witness :
    wellKeyed RuleKey cRulesW ∧ wellKeyed RuleKey dRulesW ∧
    (keys dRulesW).Nodup ∧
    sweepErr (ApplyRules (trNone Rule) cRulesW dRulesW) = none ∧
    ("10.2.0.0/16" ∈ keys (runOps (trNone Rule) RuleKey
        (ApplyRules (trNone Rule) cRulesW dRulesW).ops cRulesW) ↔
      "10.2.0.0/16" ∈ keys dRulesW) :=
  ⟨by decide, by decide, by decide, by decide,
   claim_C1_apply_rules_key_set (trNone Rule) cRulesW dRulesW (by decide) (by decide)
     (by decide) (by decide) "10.2.0.0/16"⟩

/-- Witness for C2: same destination and table, different gateway. -/
theorem claim_C2_witness :
    wellKeyed RouteKey cRoutesW ∧ wellKeyed RouteKey dRoutesW ∧
    (keys dRoutesW).Nodup ∧
    lookupK cRoutesW "10.0.0.0/24-100" = some routeA ∧
    lookupK dRoutesW "10.0.0.0/24-100" = some routeA2 ∧
    opsForKey RouteKey "10.0.0.0/24-100"
        (ApplyRoutes (trNone Route) cRoutesW dRoutesW).ops = [Op.replace routeA2] :=
  ⟨by decide, by decide, by decide, by decide, by decide,
   (claim_C2_replace_iff_route_changed (trNone Route) cRoutesW dRoutesW
       "10.0.0.0/24-100" routeA routeA2 (by decide) (by decide) (by decide)
       (by decide) (by decide)).trans (by decide)⟩

/-- Witness for C3: a failing transport issues the same operations as a
successful one, and both the add and the delete are attempted. -/
theorem claim_C3_witness :
    (keys dRulesW).Nodup ∧
    (ApplyRules (trFail Rule) cRulesW dRulesW).ops =
      (ApplyRules (trNone Rule) cRulesW dRulesW).ops ∧
    Op.add ruleB ∈ (ApplyRules (trFail Rule) cRulesW dRulesW).ops ∧
    Op.del ruleA ∈ (ApplyRules (trFail Rule) cRulesW dRulesW).ops :=
  ⟨by decide,
   (claim_C3_continue_on_error (trFail Rule) (trNone Rule) cRulesW dRulesW
     (by decide)).1,
   (claim_C3_continue_on_error (trFail Rule) (trNone Rule) cRulesW dRulesW
     (by decide)).2.2.1 (RuleKey ruleB, ruleB) (by decide) (by decide),
   (claim_C3_continue_on_error (trFail Rule) (trNone Rule) cRulesW dRulesW
     (by decide)).2.2.2 (RuleKey ruleA, ruleA) (by decide) (by decide)⟩

/-- Witness for C5: after a successful converge, a second converge with the
same desired routes issues nothing. -/
theorem claim_C5_witness :
    wellKeyed RouteKey cRoutesW ∧ wellKeyed RouteKey dRoutesW ∧
    (keys dRoutesW).Nodup ∧
    sweepErr (ApplyRoutes (trNone Route) cRoutesW dRoutesW) = none ∧
    (ApplyRoutes (trNone Route)
        (runOps (trNone Route) RouteKey
          (ApplyRoutes (trNone Route) cRoutesW dRoutesW).ops cRoutesW)
        dRoutesW).ops = [] :=
  ⟨by decide, by decide, by decide, by decide,
   claim_C5_apply_routes_idempotent (trNone Route) (trNone Route) cRoutesW dRoutesW
     (by decide) (by decide) (by decide) (by decide)⟩

/-- Witness for C6: the zero-MAC neighbor is filed under its IP text, the
non-zero-MAC neighbor is dropped. -/
theorem claim_C6_witness :
    ListFDBsOnNode (Except.ok [neighA, neighB]) =
      Except.ok [("192.168.0.1", neighA)] ∧
    lookupK [("192.168.0.1", neighA)] (ipString neighA.ip) = some neighA :=
  ⟨by rfl,
   (claim_C6_fdb_filter [neighA, neighB] [("192.168.0.1", neighA)] (by rfl)).2.2
     neighA (by decide) (by decide) (by decide)⟩

/-- Witness for C8: the same IP key with two different MACs produces no
operation for that key. -/
theorem claim_C8_witness :
    wellKeyed fdbKey cFdbW ∧ wellKeyed fdbKey dFdbW ∧ (keys dFdbW).Nodup ∧
    lookupK cFdbW "192.168.0.1" = some neighA ∧
    lookupK dFdbW "192.168.0.1" = some neighC ∧
    neighA.hardwareAddr ≠ neighC.hardwareAddr ∧
    opsForKey fdbKey "192.168.0.1" (ApplyFDBs (trNone Neigh) cFdbW dFdbW).ops = [] :=
  ⟨by decide, by decide, by decide, by decide, by decide, by decide,
   claim_C8_fdb_no_replace (trNone Neigh) cFdbW dFdbW "192.168.0.1" neighA neighC
     (by decide) (by decide) (by decide) (by decide) (by decide)⟩

end Raven
